import Mathlib

/- Verification of the PseudoBank pseudonymization core (src/pseudonymize.py):
the allocator `SessionMapper._get_random_number`, the mapper
`SessionMapper.get_fake_value`, and the column-replacement loop of
`interactive_pseudonymize` (Step 6). Python's `random.choice(available)` is
modelled by an injected stream `g : Nat → Nat` of draws: a draw consumes
`g 0` and picks the element of `available` at index `g 0 % len available`;
every possible behaviour of `random.choice` is realised by some stream. -/

namespace PseudoBank

/-- Decimal digit character, as produced by Python `str` for one digit `d`. -/
def digitCh (d : Nat) : Char := Char.ofNat (48 + d)

/-- Fuel-indexed list of decimal digit characters of `n` (most significant
first), matching Python `str(n)` for a natural number. -/
def toDecimalCore : Nat → Nat → List Char
  | 0, _ => []
  | fuel + 1, n =>
    if n < 10 then [digitCh n]
    else toDecimalCore fuel (n / 10) ++ [digitCh (n % 10)]

/-- Python `str(n)` for a natural number `n`. -/
def natRepr (n : Nat) : String := String.mk (toDecimalCore (n + 1) n)

/-- Python `str.zfill w`: pad on the left with zero characters up to width `w`. -/
def zfill (w : Nat) (s : String) : String :=
  if s.length < w then String.mk (List.replicate (w - s.length) '0') ++ s else s

/-- The pseudonym built at pseudonymize.py line 69: prefix, underscore, and the
allocated number zero-padded to at least three digits. -/
def fakeString (pfx : String) (num : Nat) : String :=
  pfx ++ "_" ++ zfill 3 (natRepr num)

/-- Numeric value of a decimal digit character; left inverse material for the
pseudonym rendering. -/
def charToDigit (c : Char) : Nat := c.toNat - 48

/-- Decimal value of a list of digit characters. -/
def decodeDec (l : List Char) : Nat := l.foldl (fun a c => 10 * a + charToDigit c) 0

/-- State of a `SessionMapper` (pseudonymize.py lines 25-76): `_mappings` maps
a prefix to its real-value/fake-value association list in insertion order, and
`_used_numbers` maps a prefix to the set of numbers already issued for it.
Prefixes never touched are mapped to the empty association and the empty set,
matching the lazy `if prefix not in ...` initialisation in the source. -/
structure SessionMapper where
  mappings : String → List (String × String)
  usedNumbers : String → Finset Nat

/-- A fresh mapper, as built by `SessionMapper.__init__`. -/
def SessionMapper.init : SessionMapper :=
  { mappings := fun _ => [], usedNumbers := fun _ => ∅ }

/-- Lookup of a real value in one per-prefix mapping association list; models
both the `in` test and the indexing on the Python dict. -/
def lookupVal : List (String × String) → String → Option String
  | [], _ => none
  | (k, f) :: rest, v => if k = v then some f else lookupVal rest v

/-- One call of `SessionMapper._get_random_number` (lines 40-56) on the used
set of one prefix. `available` is the primary range 1..999 with used numbers
removed; if it is empty the call returns `len(used) + 1000` and records
nothing, otherwise a random element of `available` is chosen via the stream,
recorded as used, and returned. -/
def getRandomNumber (used : Finset Nat) (g : Nat → Nat) :
    Nat × Finset Nat × (Nat → Nat) :=
  let available := (List.range' 1 999).filter (fun n => decide (n ∉ used))
  if available.isEmpty then
    (used.card + 1000, used, g)
  else
    let chosen := available.getD (g 0 % available.length) 0
    (chosen, insert chosen used, fun i => g (i + 1))

/-- One call of `SessionMapper.get_fake_value` (lines 58-72): on a cached
value return the cached fake, otherwise allocate a number, format the
pseudonym, cache it under the prefix and return it. -/
def getFakeValue (m : SessionMapper) (g : Nat → Nat) (pfx v : String) :
    String × SessionMapper × (Nat → Nat) :=
  match lookupVal (m.mappings pfx) v with
  | some f => (f, m, g)
  | none =>
    let res := getRandomNumber (m.usedNumbers pfx) g
    let fake := fakeString pfx res.1
    (fake,
     { mappings := fun q => if q = pfx then m.mappings pfx ++ [(v, fake)] else m.mappings q,
       usedNumbers := fun q => if q = pfx then res.2.1 else m.usedNumbers q },
     res.2.2)

/-- Allocator state (used set and remaining stream) after `n` successive
`_get_random_number` calls for one prefix in a fresh session. -/
def allocState (g : Nat → Nat) : Nat → Finset Nat × (Nat → Nat)
  | 0 => (∅, g)
  | n + 1 =>
    let s := allocState g n
    let r := getRandomNumber s.1 s.2
    (r.2.1, r.2.2)

/-- The number returned by the `n`-th (0-based) `_get_random_number` call for
one prefix in a fresh session. -/
def allocOut (g : Nat → Nat) (n : Nat) : Nat :=
  (getRandomNumber (allocState g n).1 (allocState g n).2).1

/-- A cell of a table column; `none` models a missing value (`pd.isna`). -/
abbrev Cell := Option String

/-- A data table: the ordered list of its named columns, each an ordered list
of cells. -/
abbrev Table := List (String × List Cell)

/-- Column read `df[col]`: the first column of that name, if any; `none`
models the `KeyError` pandas raises on an absent column. -/
def getColumn : Table → String → Option (List Cell)
  | [], _ => none
  | (n, cs) :: rest, col => if n = col then some cs else getColumn rest col

/-- Column write `df[col] = cells`, replacing the cells of the named column. -/
def setColumn : Table → String → List Cell → Table
  | [], _, _ => []
  | (n, cs) :: rest, col, cells =>
    if n = col then (n, cells) :: rest else (n, cs) :: setColumn rest col cells

/-- The `df[col].apply(replace_value)` pass of lines 334-339: a missing cell
is returned unchanged and touches nothing; any other cell is routed through
`get_fake_value`, threading the mapper state and the stream left to right. -/
def mapColumn (pfx : String) (st : SessionMapper × (Nat → Nat)) :
    List Cell → List Cell × SessionMapper × (Nat → Nat)
  | [] => ([], st.1, st.2)
  | none :: rest =>
    let r := mapColumn pfx st rest
    (none :: r.1, r.2)
  | some s :: rest =>
    let q := getFakeValue st.1 st.2 pfx s
    let r := mapColumn pfx (q.2.1, q.2.2) rest
    (some q.1 :: r.1, r.2)

/-- The Step 6 column loop of `interactive_pseudonymize` (lines 331-339),
acting in place on the table. Reaching a column name absent from the table
raises `KeyError` at the `df[col]` read: the loop stops, reporting the error
message and the table as mutated so far. -/
def transformLoop (st : SessionMapper × (Nat → Nat)) (t : Table) :
    List (String × String) → Option String × Table × SessionMapper × (Nat → Nat)
  | [] => (none, t, st.1, st.2)
  | (col, pfx) :: rest =>
    match getColumn t col with
    | none => (some ("KeyError: " ++ col), t, st.1, st.2)
    | some cells =>
      let r := mapColumn pfx st cells
      transformLoop r.2 (setColumn t col r.1) rest

/-- The core transformation of lines 328-339: a fresh `SessionMapper`, then
the column loop over the assignments in insertion order. -/
def transform (g : Nat → Nat) (t : Table) (asgn : List (String × String)) :
    Option String × Table × SessionMapper × (Nat → Nat) :=
  transformLoop (SessionMapper.init, g) t asgn

/-- Mapper states reachable within one session: the fresh state, and anything
produced from a reachable state by one `get_fake_value` call. -/
inductive Reachable : SessionMapper → Prop
  | init : Reachable SessionMapper.init
  | step (m : SessionMapper) (g : Nat → Nat) (pfx v : String) :
      Reachable m → Reachable (getFakeValue m g pfx v).2.1

/-- Later states of the same session: `Evolves m m'` holds when `m'` is
obtained from `m` by any number of further `get_fake_value` calls. -/
inductive Evolves : SessionMapper → SessionMapper → Prop
  | refl (m : SessionMapper) : Evolves m m
  | step (m m' : SessionMapper) (g : Nat → Nat) (pfx v : String) :
      Evolves m m' → Evolves m (getFakeValue m' g pfx v).2.1

/-- Every cached fake value has the shape built at line 69 of the source. -/
def WF (m : SessionMapper) : Prop :=
  ∀ pfx e, e ∈ m.mappings pfx → ∃ n, e.2 = fakeString pfx n

/-- Every cached fake value carrying a primary-range number has that number
recorded in the used set of its prefix. -/
def PrimFresh (m : SessionMapper) : Prop :=
  ∀ pfx e, e ∈ m.mappings pfx → ∀ n, n ≤ 999 → e.2 = fakeString pfx n →
    n ∈ m.usedNumbers pfx

/-- No two cached entries of one prefix share a primary-range pseudonym. -/
def PrimDistinct (m : SessionMapper) : Prop :=
  ∀ pfx, List.Pairwise
    (fun e1 e2 => ∀ n, n ≤ 999 → e1.2 = fakeString pfx n → e2.2 ≠ fakeString pfx n)
    (m.mappings pfx)

/-- Relation between an input column and the corresponding output column of
the transformation, relative to the assignment list and the final session
mapper `M`: the names agree; an assigned column's cells are the input cells
replaced in place — output cell i is obtained from input cell i alone, a
missing cell staying missing and any other cell becoming the pseudonym the
(returned) session mapper `M` gives its value — so row count and row order
are preserved; an unassigned column is returned identical. -/
def ColRel (asgn : List (String × String)) (M : SessionMapper)
    (a b : String × List Cell) : Prop :=
  b.1 = a.1 ∧
  (∀ pfxc, (a.1, pfxc) ∈ asgn →
    b.2 = a.2.map (Option.map (fun s => (getFakeValue M (fun _ => 0) pfxc s).1))) ∧
  (a.1 ∉ asgn.map Prod.fst → b = a)

theorem charToDigit_digitCh : ∀ d, d < 10 → charToDigit (digitCh d) = d := by decide

theorem decodeDec_append_single (l : List Char) (c : Char) :
    decodeDec (l ++ [c]) = 10 * decodeDec l + charToDigit c := by
  simp [decodeDec, List.foldl_append]

theorem decodeDec_toDecimalCore :
    ∀ fuel n, n < fuel → decodeDec (toDecimalCore fuel n) = n := by
  intro fuel
  induction fuel with
  | zero => intro n h; omega
  | succ fuel ih =>
    intro n h
    by_cases h10 : n < 10
    · simp [toDecimalCore, h10, decodeDec, charToDigit_digitCh n h10]
    · have hdiv : n / 10 < fuel := by
        have := Nat.div_lt_self (show 0 < n by omega) (show 1 < 10 by omega)
        omega
      rw [toDecimalCore, if_neg h10, decodeDec_append_single, ih _ hdiv,
        charToDigit_digitCh (n % 10) (Nat.mod_lt n (by omega))]
      omega

theorem decodeDec_replicate_zero :
    ∀ (k : Nat) (l : List Char), decodeDec (List.replicate k '0' ++ l) = decodeDec l := by
  intro k
  induction k with
  | zero => intro l; rfl
  | succ k ih =>
    intro l
    have hsplit : List.replicate (k + 1) '0' ++ l = '0' :: (List.replicate k '0' ++ l) := by
      simp [List.replicate_succ]
    rw [hsplit]
    show List.foldl (fun a c => 10 * a + charToDigit c)
      (10 * 0 + charToDigit '0') (List.replicate k '0' ++ l) = decodeDec l
    have hzero : 10 * 0 + charToDigit '0' = 0 := by decide
    rw [hzero]
    exact ih l

theorem decodeDec_zfill_natRepr (n : Nat) :
    decodeDec ((zfill 3 (natRepr n)).data) = n := by
  by_cases h : (natRepr n).length < 3
  · have hd : (zfill 3 (natRepr n)).data
        = List.replicate (3 - (natRepr n).length) '0' ++ (natRepr n).data := by
      simp [zfill, h, String.data_append]
    rw [hd, decodeDec_replicate_zero]
    exact decodeDec_toDecimalCore (n + 1) n (Nat.lt_succ_self n)
  · have hz : zfill 3 (natRepr n) = natRepr n := by simp [zfill, h]
    rw [hz]
    exact decodeDec_toDecimalCore (n + 1) n (Nat.lt_succ_self n)

theorem fakeString_inj (pfx : String) {a b : Nat}
    (h : fakeString pfx a = fakeString pfx b) : a = b := by
  have hd := congrArg String.data h
  simp only [fakeString, String.data_append, List.append_assoc] at hd
  have h1 := List.append_cancel_left hd
  have h2 := List.append_cancel_left h1
  have h3 := congrArg decodeDec h2
  rwa [decodeDec_zfill_natRepr, decodeDec_zfill_natRepr] at h3

theorem getD_mod_mem {l : List Nat} (h : l ≠ []) (i : Nat) :
    l.getD (i % l.length) 0 ∈ l := by
  have hlen : 0 < l.length := List.length_pos.2 h
  have hidx : i % l.length < l.length := Nat.mod_lt _ hlen
  rw [List.getD_eq_getElem?_getD, List.getElem?_eq_getElem hidx]
  exact List.getElem_mem hidx

theorem available_ne_nil {used : Finset Nat}
    (hcard : used.card < 999) :
    (List.range' 1 999).filter (fun n => decide (n ∉ used)) ≠ [] := by
  intro hnil
  have hsub : Finset.Icc 1 999 ⊆ used := by
    intro a ha
    have hb := Finset.mem_Icc.1 ha
    have har : a ∈ List.range' 1 999 := List.mem_range'_1.2 ⟨hb.1, by omega⟩
    have := List.filter_eq_nil_iff.1 hnil a har
    simpa using this
  have := Finset.card_le_card hsub
  rw [Nat.card_Icc] at this
  omega

theorem grn_primary (used : Finset Nat) (g : Nat → Nat)
    (hcard : used.card < 999) :
    (getRandomNumber used g).1 ∈ Finset.Icc 1 999 ∧
    (getRandomNumber used g).1 ∉ used ∧
    (getRandomNumber used g).2.1 = insert (getRandomNumber used g).1 used := by
  have hne := available_ne_nil hcard
  have hemp : ¬ ((List.range' 1 999).filter (fun n => decide (n ∉ used))).isEmpty = true := by
    simpa [List.isEmpty_iff] using hne
  have hmem := getD_mod_mem hne (g 0)
  have hfil := List.mem_filter.1 hmem
  have hrange := List.mem_range'_1.1 hfil.1
  have hnot : ((List.range' 1 999).filter (fun n => decide (n ∉ used))).getD
      (g 0 % ((List.range' 1 999).filter (fun n => decide (n ∉ used))).length) 0 ∉ used := by
    simpa using hfil.2
  simp only [getRandomNumber, if_neg hemp]
  exact ⟨Finset.mem_Icc.2 ⟨hrange.1, by omega⟩, hnot, trivial⟩

theorem grn_exhausted (used : Finset Nat) (g : Nat → Nat)
    (hsub : used ⊆ Finset.Icc 1 999) (hcard : 999 ≤ used.card) :
    getRandomNumber used g = (1999, used, g) := by
  have heq : used = Finset.Icc 1 999 :=
    Finset.eq_of_subset_of_card_le hsub (by rw [Nat.card_Icc]; omega)
  have hnil : (List.range' 1 999).filter (fun n => decide (n ∉ used)) = [] := by
    apply List.filter_eq_nil_iff.2
    intro a ha
    have hr := List.mem_range'_1.1 ha
    simp only [decide_eq_true_eq, not_not]
    rw [heq]
    exact Finset.mem_Icc.2 ⟨hr.1, by omega⟩
  have hc999 : used.card = 999 := by
    rw [heq, Nat.card_Icc]
  simp only [getRandomNumber, hnil, List.isEmpty_nil, if_pos, hc999]

theorem grn_state_subset (used : Finset Nat) (g : Nat → Nat)
    (hsub : used ⊆ Finset.Icc 1 999) :
    (getRandomNumber used g).2.1 ⊆ Finset.Icc 1 999 := by
  by_cases hc : used.card < 999
  · obtain ⟨hmem, _, heq⟩ := grn_primary used g hc
    rw [heq]
    exact Finset.insert_subset hmem hsub
  · rw [grn_exhausted used g hsub (by omega)]
    exact hsub

theorem allocState_inv (g : Nat → Nat) :
    ∀ n, (allocState g n).1 ⊆ Finset.Icc 1 999 ∧ (allocState g n).1.card = min n 999 := by
  intro n
  induction n with
  | zero => simp [allocState]
  | succ n ih =>
    obtain ⟨hsub, hcard⟩ := ih
    by_cases hlt : n < 999
    · have hc : (allocState g n).1.card < 999 := by omega
      obtain ⟨hmem, hnot, heq⟩ := grn_primary (allocState g n).1 (allocState g n).2 hc
      refine ⟨?_, ?_⟩
      · simp only [allocState]
        rw [heq]
        exact Finset.insert_subset hmem hsub
      · simp only [allocState]
        rw [heq, Finset.card_insert_of_not_mem hnot, hcard]
        omega
    · have hc : 999 ≤ (allocState g n).1.card := by omega
      have hx := grn_exhausted (allocState g n).1 (allocState g n).2 hsub hc
      refine ⟨?_, ?_⟩
      · simp only [allocState]
        rw [hx]
        exact hsub
      · simp only [allocState]
        rw [hx]
        show (allocState g n).1.card = min (n + 1) 999
        omega

theorem allocOut_exhausted (g : Nat → Nat) (n : Nat) (h : 999 ≤ n) :
    allocOut g n = 1999 := by
  obtain ⟨hsub, hcard⟩ := allocState_inv g n
  have hc : 999 ≤ (allocState g n).1.card := by omega
  rw [allocOut, grn_exhausted _ _ hsub hc]

/-- C1: the claim says successive `_get_random_number` calls for one prefix
never repeat, including past the primary range. The code violates this: once
the primary range is exhausted it returns `len(used) + 1000 = 1999` on every
call (fallback numbers are never added to the used set), so the 1000th and
1001st calls (0-based indices 999 and 1000) return the same number. -/
theorem C1_duplicate_after_exhaustion :
    allocOut (fun _ => 0) 999 = 1999 ∧ allocOut (fun _ => 0) 1000 = 1999 :=
  ⟨allocOut_exhausted _ _ (le_refl 999), allocOut_exhausted _ _ (by omega)⟩

/-- C2: the claim says fallback allocations return `1000 + (count - 999)` and
are strictly increasing. The code instead returns the constant 1999 on every
fallback call: the 1000th call (which the claimed formula would make 1000)
and the 1001st call both yield 1999, so the fallback sequence is neither the
claimed formula nor strictly increasing. -/
theorem C2_fallback_constant :
    allocOut (fun _ => 1) 999 = 1999 ∧ allocOut (fun _ => 1) 1000 = 1999 ∧
    ¬ allocOut (fun _ => 1) 999 < allocOut (fun _ => 1) 1000 := by
  have h1 := allocOut_exhausted (fun _ => 1) 999 (le_refl 999)
  have h2 := allocOut_exhausted (fun _ => 1) 1000 (by omega)
  exact ⟨h1, h2, by omega⟩

theorem reachable_used_subset {m : SessionMapper} (h : Reachable m) :
    ∀ pfx, m.usedNumbers pfx ⊆ Finset.Icc 1 999 := by
  induction h with
  | init =>
    intro pfx
    simp only [SessionMapper.init]
    exact Finset.empty_subset _
  | step m g pfx v _ ih =>
    intro q
    cases hl : lookupVal (m.mappings pfx) v with
    | some f =>
      simp only [getFakeValue, hl]
      exact ih q
    | none =>
      simp only [getFakeValue, hl]
      by_cases hq : q = pfx
      · subst hq
        simp only [if_pos rfl]
        exact grn_state_subset _ g (ih q)
      · simp only [if_neg hq]
        exact ih q

theorem getFakeValue_hit {m : SessionMapper} {pfx v f : String} (g : Nat → Nat)
    (h : lookupVal (m.mappings pfx) v = some f) :
    getFakeValue m g pfx v = (f, m, g) := by
  simp only [getFakeValue, h]

theorem getFakeValue_miss {m : SessionMapper} {pfx v : String} (g : Nat → Nat)
    (h : lookupVal (m.mappings pfx) v = none) :
    getFakeValue m g pfx v =
      (fakeString pfx (getRandomNumber (m.usedNumbers pfx) g).1,
       { mappings := fun q => if q = pfx then m.mappings pfx ++
           [(v, fakeString pfx (getRandomNumber (m.usedNumbers pfx) g).1)] else m.mappings q,
         usedNumbers := fun q => if q = pfx then (getRandomNumber (m.usedNumbers pfx) g).2.1
           else m.usedNumbers q },
       (getRandomNumber (m.usedNumbers pfx) g).2.2) := by
  simp only [getFakeValue, h]

theorem lookupVal_append_self :
    ∀ (l : List (String × String)) (v f : String), lookupVal l v = none →
      lookupVal (l ++ [(v, f)]) v = some f := by
  intro l v f h
  induction l with
  | nil => simp [lookupVal]
  | cons e rest ih =>
    obtain ⟨k, a⟩ := e
    by_cases hk : k = v
    · simp [lookupVal, hk] at h
    · simp only [List.cons_append, lookupVal, if_neg hk] at h ⊢
      exact ih h

theorem lookupVal_append_ne :
    ∀ (l : List (String × String)) (v w f : String), w ≠ v →
      lookupVal (l ++ [(v, f)]) w = lookupVal l w := by
  intro l v w f hne
  induction l with
  | nil => simp [lookupVal, Ne.symm hne]
  | cons e rest ih =>
    obtain ⟨k, a⟩ := e
    by_cases hk : k = w
    · simp [lookupVal, hk]
    · simp only [List.cons_append, lookupVal, if_neg hk]
      exact ih

theorem lookupVal_eq_some_mem :
    ∀ (l : List (String × String)) (v f : String), lookupVal l v = some f → (v, f) ∈ l := by
  intro l v f h
  induction l with
  | nil => simp [lookupVal] at h
  | cons e rest ih =>
    obtain ⟨k, a⟩ := e
    by_cases hk : k = v
    · subst hk
      simp [lookupVal] at h
      subst h
      exact List.mem_cons_self _ _
    · have h' : lookupVal rest v = some f := by simpa [lookupVal, hk] using h
      exact List.mem_cons_of_mem _ (ih h')

/-- C10: in every reachable mapper state, every number recorded in the used
set of any prefix lies in [1, 999] — fallback numbers (at least 1000) are
never recorded — and hence the used set never holds more than 999 numbers. -/
theorem C10_used_numbers_range {m : SessionMapper} (h : Reachable m) (pfx : String) :
    m.usedNumbers pfx ⊆ Finset.Icc 1 999 ∧ (m.usedNumbers pfx).card ≤ 999 := by
  have hs := reachable_used_subset h pfx
  refine ⟨hs, ?_⟩
  have := Finset.card_le_card hs
  rwa [Nat.card_Icc] at this

/-- Witness for C10: the invariant instantiated at the concrete reachable
state obtained by one mapping call on a fresh session. -/
theorem C10_used_numbers_range_witness :
    ((getFakeValue SessionMapper.init (fun _ => 0) "Vendor" "Acme").2.1.usedNumbers "Vendor")
      ⊆ Finset.Icc 1 999 ∧
    ((getFakeValue SessionMapper.init (fun _ => 0) "Vendor" "Acme").2.1.usedNumbers "Vendor").card
      ≤ 999 :=
  C10_used_numbers_range (Reachable.step SessionMapper.init (fun _ => 0) "Vendor" "Acme"
    Reachable.init) "Vendor"

theorem lookupVal_append_of_some :
    ∀ (l : List (String × String)) (v f : String), lookupVal l v = some f →
      ∀ l2, lookupVal (l ++ l2) v = some f := by
  intro l v f h l2
  induction l with
  | nil => simp [lookupVal] at h
  | cons e rest ih =>
    obtain ⟨k, a⟩ := e
    by_cases hk : k = v
    · simp only [lookupVal, if_pos hk] at h
      simp only [List.cons_append, lookupVal, if_pos hk]
      exact h
    · simp only [lookupVal, if_neg hk] at h
      simp only [List.cons_append, lookupVal, if_neg hk]
      exact ih h

theorem getFakeValue_caches (m : SessionMapper) (g : Nat → Nat) (pfx v : String) :
    lookupVal ((getFakeValue m g pfx v).2.1.mappings pfx) v
      = some (getFakeValue m g pfx v).1 := by
  cases hl : lookupVal (m.mappings pfx) v with
  | some f =>
    rw [getFakeValue_hit g hl]
    exact hl
  | none =>
    rw [getFakeValue_miss g hl]
    simp only [if_pos rfl]
    exact lookupVal_append_self _ _ _ hl

theorem evolves_lookup_mono {m m' : SessionMapper} (hev : Evolves m m')
    {pfx v f : String} (h : lookupVal (m.mappings pfx) v = some f) :
    lookupVal (m'.mappings pfx) v = some f := by
  induction hev with
  | refl => exact h
  | step m2 g2 pfx2 v2 _ ih =>
    cases hl : lookupVal (m2.mappings pfx2) v2 with
    | some f2 =>
      rw [getFakeValue_hit g2 hl]
      exact ih
    | none =>
      rw [getFakeValue_miss g2 hl]
      by_cases hq : pfx = pfx2
      · subst hq
        simp only [if_pos rfl]
        exact lookupVal_append_of_some _ _ _ ih _
      · simp only [if_neg hq]
        exact ih

/-- C3: once `get_fake_value` has mapped a (prefix, value) pair, any later
call in the same session with the same prefix and value — after arbitrary
other calls — returns the identical pseudonym, performs no new allocation,
and leaves the whole mapper state (in particular the used-number set of the
prefix) and the random stream untouched. -/
theorem C3_consistency (m : SessionMapper) (g g2 : Nat → Nat) (pfx v : String)
    {m' : SessionMapper} (hev : Evolves (getFakeValue m g pfx v).2.1 m') :
    getFakeValue m' g2 pfx v = ((getFakeValue m g pfx v).1, m', g2) :=
  getFakeValue_hit g2 (evolves_lookup_mono hev (getFakeValue_caches m g pfx v))

/-- Witness for C3: the immediately repeated call on a fresh session returns
the first call's pseudonym and changes nothing. -/
theorem C3_consistency_witness :
    getFakeValue (getFakeValue SessionMapper.init (fun _ => 0) "Vendor" "Acme").2.1
        (fun _ => 1) "Vendor" "Acme"
      = ((getFakeValue SessionMapper.init (fun _ => 0) "Vendor" "Acme").1,
         (getFakeValue SessionMapper.init (fun _ => 0) "Vendor" "Acme").2.1,
         fun _ => 1) :=
  C3_consistency SessionMapper.init (fun _ => 0) (fun _ => 1) "Vendor" "Acme"
    (Evolves.refl _)

theorem grn_cases (used : Finset Nat) (g : Nat → Nat) :
    ((getRandomNumber used g).1 ∈ Finset.Icc 1 999 ∧ (getRandomNumber used g).1 ∉ used ∧
      (getRandomNumber used g).2.1 = insert (getRandomNumber used g).1 used) ∨
    (1000 ≤ (getRandomNumber used g).1 ∧ (getRandomNumber used g).2.1 = used) := by
  by_cases he : ((List.range' 1 999).filter (fun n => decide (n ∉ used))).isEmpty = true
  · right
    have h1 : getRandomNumber used g = (used.card + 1000, used, g) := by
      simp only [getRandomNumber, if_pos he]
    rw [h1]
    exact ⟨Nat.le_add_left 1000 used.card, rfl⟩
  · left
    have hne : (List.range' 1 999).filter (fun n => decide (n ∉ used)) ≠ [] := by
      simpa [List.isEmpty_iff] using he
    have hmem := getD_mod_mem hne (g 0)
    have hfil := List.mem_filter.1 hmem
    have hrange := List.mem_range'_1.1 hfil.1
    have hnot : ((List.range' 1 999).filter (fun n => decide (n ∉ used))).getD
        (g 0 % ((List.range' 1 999).filter (fun n => decide (n ∉ used))).length) 0 ∉ used := by
      simpa using hfil.2
    simp only [getRandomNumber, if_neg he]
    exact ⟨Finset.mem_Icc.2 ⟨hrange.1, by omega⟩, hnot, trivial⟩

theorem reachable_prim {m : SessionMapper} (h : Reachable m) :
    PrimFresh m ∧ PrimDistinct m := by
  induction h with
  | init =>
    constructor
    · intro pfx e he
      simp [SessionMapper.init] at he
    · intro pfx
      exact List.Pairwise.nil
  | step m g pfx v _ ih =>
    obtain ⟨ihF, ihD⟩ := ih
    cases hl : lookupVal (m.mappings pfx) v with
    | some f =>
      rw [getFakeValue_hit g hl]
      exact ⟨ihF, ihD⟩
    | none =>
      rw [getFakeValue_miss g hl]
      rcases grn_cases (m.usedNumbers pfx) g with ⟨_, hnot, hst⟩ | ⟨hge, hst⟩
      · constructor
        · intro q e he n hn hfs
          by_cases hq : q = pfx
          · subst hq
            simp only [if_pos rfl] at he ⊢
            rw [hst]
            rcases List.mem_append.1 he with hold | hnew
            · exact Finset.mem_insert_of_mem (ihF q e hold n hn hfs)
            · have he2 : e = (v, fakeString q (getRandomNumber (m.usedNumbers q) g).1) := by
                simpa using hnew
              have hfk : fakeString q (getRandomNumber (m.usedNumbers q) g).1
                  = fakeString q n := by
                rw [← hfs, he2]
              rw [← fakeString_inj q hfk]
              exact Finset.mem_insert_self _ _
          · simp only [if_neg hq] at he ⊢
            exact ihF q e he n hn hfs
        · intro q
          by_cases hq : q = pfx
          · subst hq
            simp only [if_pos rfl, if_true]
            rw [List.pairwise_append]
            refine ⟨ihD q, List.pairwise_singleton _ _, ?_⟩
            intro e1 he1 e2 he2 n hn hfs1
            have he2' : e2 = (v, fakeString q (getRandomNumber (m.usedNumbers q) g).1) := by
              simpa using he2
            rw [he2']
            intro hfs2
            have hfk : (getRandomNumber (m.usedNumbers q) g).1 = n := fakeString_inj q hfs2
            apply hnot
            rw [hfk]
            exact ihF q e1 he1 n hn hfs1
          · simp only [if_neg hq]
            exact ihD q
      · constructor
        · intro q e he n hn hfs
          by_cases hq : q = pfx
          · subst hq
            simp only [if_pos rfl] at he ⊢
            rw [hst]
            rcases List.mem_append.1 he with hold | hnew
            · exact ihF q e hold n hn hfs
            · have he2 : e = (v, fakeString q (getRandomNumber (m.usedNumbers q) g).1) := by
                simpa using hnew
              have hfk : fakeString q (getRandomNumber (m.usedNumbers q) g).1
                  = fakeString q n := by
                rw [← hfs, he2]
              have hchn := fakeString_inj q hfk
              exact absurd hn (by omega)
          · simp only [if_neg hq] at he ⊢
            exact ihF q e he n hn hfs
        · intro q
          by_cases hq : q = pfx
          · subst hq
            simp only [if_pos rfl, if_true]
            rw [List.pairwise_append]
            refine ⟨ihD q, List.pairwise_singleton _ _, ?_⟩
            intro e1 he1 e2 he2 n hn hfs1
            have he2' : e2 = (v, fakeString q (getRandomNumber (m.usedNumbers q) g).1) := by
              simpa using he2
            rw [he2']
            intro hfs2
            have hfk : (getRandomNumber (m.usedNumbers q) g).1 = n := fakeString_inj q hfs2
            omega
          · simp only [if_neg hq]
            exact ihD q


set_option maxRecDepth 100000 in
/-- C5 counterexample: the claim says the core mapping operation fails with
an EmptyPrefix error on an empty prefix. The source has no such check and no
error path at all: with the empty prefix the call succeeds like any other and
returns the pseudonym "_001" here (the stream picks index 0, so number 1). -/
theorem C5_counterexample :
    (getFakeValue SessionMapper.init (fun _ => 0) "" "Acme").1 = "_001" := by decide

/-- C5 amended: `get_fake_value` performs no prefix validation: called with
the empty prefix on a fresh session it succeeds like any other prefix and
returns a pseudonym formed from the empty prefix and a primary-range number
(an underscore followed by the padded number). -/
theorem C5_no_empty_prefix_check (v : String) (g : Nat → Nat) :
    ∃ n, n ∈ Finset.Icc 1 999 ∧
      (getFakeValue SessionMapper.init g "" v).1 = fakeString "" n := by
  have h : lookupVal (SessionMapper.init.mappings "") v = none := rfl
  have hmiss := getFakeValue_miss g h
  have hc : (SessionMapper.init.usedNumbers "").card < 999 := by
    simp [SessionMapper.init]
  obtain ⟨hIcc, _, _⟩ := grn_primary (SessionMapper.init.usedNumbers "") g hc
  exact ⟨_, hIcc, by rw [hmiss]⟩

theorem reachable_WF {m : SessionMapper} (h : Reachable m) : WF m := by
  induction h with
  | init =>
    intro pfx e he
    simp [SessionMapper.init] at he
  | step m g pfx v _ ih =>
    intro q e he
    cases hl : lookupVal (m.mappings pfx) v with
    | some f =>
      rw [getFakeValue_hit g hl] at he
      exact ih q e he
    | none =>
      rw [getFakeValue_miss g hl] at he
      by_cases hq : q = pfx
      · subst hq
        simp only [if_pos rfl] at he
        rcases List.mem_append.1 he with hold | hnew
        · exact ih q e hold
        · refine ⟨(getRandomNumber (m.usedNumbers q) g).1, ?_⟩
          have he2 : e = (v, fakeString q (getRandomNumber (m.usedNumbers q) g).1) := by
            simpa using hnew
          rw [he2]
      · simp only [if_neg hq] at he
        exact ih q e he

theorem toDecimalCore_length_pos :
    ∀ fuel n, n < fuel → 1 ≤ (toDecimalCore fuel n).length := by
  intro fuel
  induction fuel with
  | zero => intro n h; omega
  | succ fuel ih =>
    intro n h
    by_cases h10 : n < 10
    · simp [toDecimalCore, h10]
    · rw [toDecimalCore, if_neg h10]
      simp [List.length_append]

theorem toDecimalCore_length2 :
    ∀ fuel n, n < fuel → 10 ≤ n → 2 ≤ (toDecimalCore fuel n).length := by
  intro fuel
  induction fuel with
  | zero => intro n h; omega
  | succ fuel _ =>
    intro n h h10
    rw [toDecimalCore, if_neg (by omega : ¬ n < 10)]
    have hdiv : n / 10 < fuel := by
      have := Nat.div_lt_self (show 0 < n by omega) (show 1 < 10 by omega)
      omega
    have hlen := toDecimalCore_length_pos fuel (n / 10) hdiv
    simp only [List.length_append, List.length_cons, List.length_nil]
    omega

theorem toDecimalCore_length3 :
    ∀ fuel n, n < fuel → 100 ≤ n → 3 ≤ (toDecimalCore fuel n).length := by
  intro fuel
  induction fuel with
  | zero => intro n h; omega
  | succ fuel _ =>
    intro n h h100
    rw [toDecimalCore, if_neg (by omega : ¬ n < 10)]
    have hdiv : n / 10 < fuel := by
      have := Nat.div_lt_self (show 0 < n by omega) (show 1 < 10 by omega)
      omega
    have hd10 : 10 ≤ n / 10 := by
      have : 10 * 10 ≤ n := by omega
      omega
    have hlen := toDecimalCore_length2 fuel (n / 10) hdiv hd10
    simp only [List.length_append, List.length_cons, List.length_nil]
    omega

theorem zfill_natRepr_wide (n : Nat) (h : 100 ≤ n) : zfill 3 (natRepr n) = natRepr n := by
  have h3 : 3 ≤ (natRepr n).length :=
    toDecimalCore_length3 (n + 1) n (Nat.lt_succ_self n) h
  simp [zfill, Nat.not_lt.2 h3]

/-- C7: every pseudonym returned by `get_fake_value` from a reachable state
is the prefix, then an underscore, then the allocated number zero-padded to
at least three digits; numbers of 1000 and above are rendered at their
natural width, with no extra padding. -/
theorem C7_pseudonym_format {m : SessionMapper} (h : Reachable m)
    (g : Nat → Nat) (pfx v : String) :
    (∃ n, (getFakeValue m g pfx v).1 = fakeString pfx n) ∧
    ∀ n, 1000 ≤ n → fakeString pfx n = pfx ++ "_" ++ natRepr n := by
  constructor
  · cases hl : lookupVal (m.mappings pfx) v with
    | some f =>
      rw [getFakeValue_hit g hl]
      obtain ⟨n, hn⟩ := reachable_WF h pfx (v, f) (lookupVal_eq_some_mem _ _ _ hl)
      exact ⟨n, hn⟩
    | none => exact ⟨_, by rw [getFakeValue_miss g hl]⟩
  · intro n hn
    rw [fakeString, zfill_natRepr_wide n (by omega)]

/-- Witness for C7 on the fresh session state, with the wide-number part
instantiated at the first fallback value 1999. -/
theorem C7_pseudonym_format_witness :
    (∃ n, (getFakeValue SessionMapper.init (fun _ => 0) "Vendor" "Acme").1
        = fakeString "Vendor" n) ∧
    fakeString "Vendor" 1999 = "Vendor" ++ "_" ++ natRepr 1999 :=
  ⟨(C7_pseudonym_format Reachable.init (fun _ => 0) "Vendor" "Acme").1,
   (C7_pseudonym_format Reachable.init (fun _ => 0) "Vendor" "Acme").2 1999 (by omega)⟩

theorem mapColumn_length (pfx : String) :
    ∀ (cells : List Cell) (st : SessionMapper × (Nat → Nat)),
      (mapColumn pfx st cells).1.length = cells.length := by
  intro cells
  induction cells with
  | nil => intro st; rfl
  | cons c rest ih =>
    intro st
    cases c with
    | none => simp [mapColumn, ih]
    | some s => simp [mapColumn, ih]

theorem setColumn_names :
    ∀ (t : Table) (col : String) (cells : List Cell),
      (setColumn t col cells).map Prod.fst = t.map Prod.fst := by
  intro t col cells
  induction t with
  | nil => rfl
  | cons e rest ih =>
    obtain ⟨n, cs⟩ := e
    by_cases hn : n = col
    · simp [setColumn, hn]
    · simp [setColumn, hn, ih]

theorem getColumn_isSome_iff :
    ∀ (t : Table) (col : String), (getColumn t col).isSome ↔ col ∈ t.map Prod.fst := by
  intro t col
  induction t with
  | nil => simp [getColumn]
  | cons e rest ih =>
    obtain ⟨n, cs⟩ := e
    by_cases hn : n = col
    · simp [getColumn, hn]
    · simp [getColumn, hn, ih, Ne.symm hn]

theorem evolves_trans {m1 m2 m3 : SessionMapper}
    (h12 : Evolves m1 m2) (h23 : Evolves m2 m3) : Evolves m1 m3 := by
  induction h23 with
  | refl => exact h12
  | step mx g2 pfx2 v2 _ ih => exact Evolves.step _ _ _ _ _ ih

theorem mapColumn_evolves (pfxc : String) :
    ∀ (cells : List Cell) (st : SessionMapper × (Nat → Nat)),
      Evolves st.1 (mapColumn pfxc st cells).2.1 := by
  intro cells
  induction cells with
  | nil => intro st; exact Evolves.refl _
  | cons c rest ih =>
    intro st
    cases c with
    | none => exact ih st
    | some s =>
      have h1 : Evolves st.1 (getFakeValue st.1 st.2 pfxc s).2.1 :=
        Evolves.step _ _ _ _ _ (Evolves.refl _)
      exact evolves_trans h1
        (ih ((getFakeValue st.1 st.2 pfxc s).2.1, (getFakeValue st.1 st.2 pfxc s).2.2))

theorem mapColumn_caches_mem (pfxc : String) :
    ∀ (cells : List Cell) (st : SessionMapper × (Nat → Nat)) (s : String),
      some s ∈ cells →
      ∃ f, lookupVal ((mapColumn pfxc st cells).2.1.mappings pfxc) s = some f := by
  intro cells
  induction cells with
  | nil =>
    intro st s h
    exact absurd h (List.not_mem_nil _)
  | cons c rest ih =>
    intro st s h
    cases c with
    | none =>
      rcases List.mem_cons.1 h with heq | htail
      · exact absurd heq (by simp)
      · exact ih st s htail
    | some s2 =>
      rcases List.mem_cons.1 h with heq | htail
      · have hs : s = s2 := Option.some.inj heq
        subst hs
        have hq := getFakeValue_caches st.1 st.2 pfxc s
        have hev := mapColumn_evolves pfxc rest
          ((getFakeValue st.1 st.2 pfxc s).2.1, (getFakeValue st.1 st.2 pfxc s).2.2)
        exact ⟨_, evolves_lookup_mono hev hq⟩
      · exact ih ((getFakeValue st.1 st.2 pfxc s2).2.1,
          (getFakeValue st.1 st.2 pfxc s2).2.2) s htail

theorem mapColumn_cells (pfxc : String) :
    ∀ (cells : List Cell) (st : SessionMapper × (Nat → Nat)),
      (mapColumn pfxc st cells).1
        = cells.map (Option.map
            (fun s => (getFakeValue (mapColumn pfxc st cells).2.1 (fun _ => 0) pfxc s).1)) := by
  intro cells
  induction cells with
  | nil => intro st; rfl
  | cons c rest ih =>
    intro st
    cases c with
    | none =>
      simp only [mapColumn, List.map_cons, Option.map_none']
      exact congrArg₂ List.cons rfl (ih st)
    | some s =>
      have hq := getFakeValue_caches st.1 st.2 pfxc s
      have hev := mapColumn_evolves pfxc rest
        ((getFakeValue st.1 st.2 pfxc s).2.1, (getFakeValue st.1 st.2 pfxc s).2.2)
      have hhit := getFakeValue_hit (fun _ => 0) (evolves_lookup_mono hev hq)
      simp only [mapColumn, List.map_cons, Option.map_some']
      rw [hhit]
      exact congrArg₂ List.cons rfl (ih ((getFakeValue st.1 st.2 pfxc s).2.1,
        (getFakeValue st.1 st.2 pfxc s).2.2))

theorem mapColumn_result_final (pfxc : String) (cells : List Cell)
    (st : SessionMapper × (Nat → Nat)) {M : SessionMapper}
    (hev : Evolves (mapColumn pfxc st cells).2.1 M) :
    (mapColumn pfxc st cells).1
      = cells.map (Option.map (fun s => (getFakeValue M (fun _ => 0) pfxc s).1)) := by
  rw [mapColumn_cells pfxc cells st]
  apply List.map_congr_left
  intro c hc
  cases c with
  | none => rfl
  | some s =>
    obtain ⟨f, hf⟩ := mapColumn_caches_mem pfxc cells st s hc
    have h1 := getFakeValue_hit (fun _ => 0) hf
    have h2 := getFakeValue_hit (fun _ => 0) (evolves_lookup_mono hev hf)
    simp only [Option.map_some']
    rw [h1, h2]

theorem colRel_nil_refl (M : SessionMapper) :
    ∀ t : Table, List.Forall₂ (ColRel [] M) t t := by
  intro t
  induction t with
  | nil => exact List.Forall₂.nil
  | cons a t1 ih =>
    exact List.Forall₂.cons
      ⟨rfl, fun p hp => absurd hp (List.not_mem_nil _), fun _ => rfl⟩ ih

theorem colRel_lift (M : SessionMapper) (col pfxc : String)
    (rest : List (String × String)) :
    ∀ (t0 tf0 : Table), col ∉ t0.map Prod.fst →
      List.Forall₂ (ColRel rest M) t0 tf0 →
      List.Forall₂ (ColRel ((col, pfxc) :: rest) M) t0 tf0 := by
  intro t0
  induction t0 with
  | nil =>
    intro tf0 _ h
    cases h
    exact List.Forall₂.nil
  | cons a t1 ih =>
    intro tf0 hcol h
    have hcol' : col ∉ a.1 :: t1.map Prod.fst := by simpa using hcol
    have hne : col ≠ a.1 := List.ne_of_not_mem_cons hcol'
    cases h with
    | cons hab h' =>
      refine List.Forall₂.cons ⟨hab.1, ?_, ?_⟩
        (ih _ (List.not_mem_of_not_mem_cons hcol') h')
      · intro p hp
        rcases List.mem_cons.1 hp with heq | htl
        · exact absurd (congrArg Prod.fst heq).symm hne
        · exact hab.2.1 p htl
      · intro hmem
        exact hab.2.2 (List.not_mem_of_not_mem_cons hmem)

theorem colRel_step (M : SessionMapper) (col pfxc : String)
    (rest : List (String × String)) :
    ∀ (t tf : Table) (cells cells2 : List Cell),
      (t.map Prod.fst).Nodup →
      col ∉ rest.map Prod.fst →
      getColumn t col = some cells →
      cells2 = cells.map (Option.map (fun s => (getFakeValue M (fun _ => 0) pfxc s).1)) →
      List.Forall₂ (ColRel rest M) (setColumn t col cells2) tf →
      List.Forall₂ (ColRel ((col, pfxc) :: rest) M) t tf := by
  intro t
  induction t with
  | nil =>
    intro tf cells cells2 _ _ h1
    simp [getColumn] at h1
  | cons e t0 ih =>
    obtain ⟨n, cs⟩ := e
    intro tf cells cells2 hnd hcolrest h1 h2 h3
    have hnd' : n ∉ t0.map Prod.fst ∧ (t0.map Prod.fst).Nodup :=
      List.nodup_cons.1 (by simpa using hnd)
    by_cases hn : n = col
    · subst hn
      have hcs : cs = cells := by simpa [getColumn] using h1
      subst hcs
      simp only [setColumn, if_pos rfl] at h3
      cases h3 with
      | cons hbc h3' =>
        refine List.Forall₂.cons ⟨hbc.1, ?_, ?_⟩ (colRel_lift M n pfxc rest _ _ hnd'.1 h3')
        · intro p hp
          rcases List.mem_cons.1 hp with heq | htl
          · have hpv : p = pfxc := congrArg Prod.snd heq
            have hc2 := hbc.2.2 (by simpa using hcolrest)
            rw [hc2, hpv]
            exact h2
          · exact absurd (List.mem_map_of_mem Prod.fst htl) hcolrest
        · intro hmem
          exact absurd (List.mem_cons_self _ _) hmem
    · simp only [setColumn, if_neg hn] at h3
      have h1' : getColumn t0 col = some cells := by simpa [getColumn, hn] using h1
      cases h3 with
      | cons hbc h3' =>
        refine List.Forall₂.cons ⟨hbc.1, ?_, ?_⟩
          (ih _ cells cells2 hnd'.2 hcolrest h1' h2 h3')
        · intro p hp
          rcases List.mem_cons.1 hp with heq | htl
          · exact absurd (congrArg Prod.fst heq) hn
          · exact hbc.2.1 p htl
        · intro hmem
          exact hbc.2.2 (List.not_mem_of_not_mem_cons hmem)

theorem transformLoop_cells :
    ∀ (asgn : List (String × String)) (st : SessionMapper × (Nat → Nat)) (t : Table),
      (t.map Prod.fst).Nodup →
      (asgn.map Prod.fst).Nodup →
      (∀ cp : String × String, cp ∈ asgn → (getColumn t cp.1).isSome) →
      (transformLoop st t asgn).1 = none ∧
      Evolves st.1 (transformLoop st t asgn).2.2.1 ∧
      List.Forall₂ (ColRel asgn (transformLoop st t asgn).2.2.1) t
        (transformLoop st t asgn).2.1 := by
  intro asgn
  induction asgn with
  | nil =>
    intro st t _ _ _
    exact ⟨rfl, Evolves.refl _, colRel_nil_refl st.1 t⟩
  | cons cp rest ih =>
    obtain ⟨col, pfxc⟩ := cp
    intro st t hnt hna h
    have hcol : (getColumn t col).isSome = true := h (col, pfxc) (List.mem_cons_self _ _)
    obtain ⟨cells, hget⟩ := Option.isSome_iff_exists.1 hcol
    have hstep : transformLoop st t ((col, pfxc) :: rest)
        = transformLoop (mapColumn pfxc st cells).2
            (setColumn t col (mapColumn pfxc st cells).1) rest := by
      simp only [transformLoop, hget]
    have hna2 : col ∉ rest.map Prod.fst ∧ (rest.map Prod.fst).Nodup :=
      List.nodup_cons.1 (by simpa using hna)
    have hnt' : ((setColumn t col (mapColumn pfxc st cells).1).map Prod.fst).Nodup := by
      rw [setColumn_names]
      exact hnt
    have hrest : ∀ cp : String × String, cp ∈ rest →
        (getColumn (setColumn t col (mapColumn pfxc st cells).1) cp.1).isSome := by
      intro cp hcp
      rw [getColumn_isSome_iff, setColumn_names, ← getColumn_isSome_iff]
      exact h cp (List.mem_cons_of_mem _ hcp)
    obtain ⟨herr, hev, hrel⟩ := ih (mapColumn pfxc st cells).2
      (setColumn t col (mapColumn pfxc st cells).1) hnt' hna2.2 hrest
    rw [hstep]
    refine ⟨herr, evolves_trans (mapColumn_evolves pfxc cells st) hev, ?_⟩
    exact colRel_step _ col pfxc rest t _ cells (mapColumn pfxc st cells).1
      hnt hna2.1 hget (mapColumn_result_final pfxc cells st hev) hrel

/-- C8: when the table's column names and the assigned column names are
duplicate-free (as produced by a spreadsheet load and a Python dict) and
every assigned column exists, the transformation reports no error and the
output table is pointwise related to the input: same column names in the same
order; every assigned column's cells are the input cells replaced in place —
output cell i comes from input cell i, so row count and row order are
preserved — by the pseudonym function of the single session mapper the call
returns; and every column not named in the assignments is byte-for-byte
identical to the input. -/
theorem C8_shape_preservation (g : Nat → Nat) (t : Table) (asgn : List (String × String))
    (hnt : (t.map Prod.fst).Nodup)
    (hna : (asgn.map Prod.fst).Nodup)
    (h : ∀ cp : String × String, cp ∈ asgn → (getColumn t cp.1).isSome) :
    (transform g t asgn).1 = none ∧
    List.Forall₂ (ColRel asgn (transform g t asgn).2.2.1) t (transform g t asgn).2.1 :=
  (transformLoop_cells asgn (SessionMapper.init, g) t hnt hna h).imp id And.right

set_option maxRecDepth 100000 in
/-- Witness for C8: a concrete two-column, two-row table with only the
"Vendor" column assigned (one of its cells missing) is transformed without
error and in place. -/
theorem C8_shape_preservation_witness :
    (transform (fun _ => 0) [("Vendor", [some "Acme", none]), ("Amount", [some "5", some "6"])]
        [("Vendor", "Vendor")]).1 = none ∧
    List.Forall₂ (ColRel [(("Vendor" : String), ("Vendor" : String))]
      (transform (fun _ => 0) [("Vendor", [some "Acme", none]), ("Amount", [some "5", some "6"])]
        [("Vendor", "Vendor")]).2.2.1)
      [("Vendor", [some "Acme", none]), ("Amount", [some "5", some "6"])]
      (transform (fun _ => 0) [("Vendor", [some "Acme", none]), ("Amount", [some "5", some "6"])]
        [("Vendor", "Vendor")]).2.1 :=
  C8_shape_preservation (fun _ => 0)
    [("Vendor", [some "Acme", none]), ("Amount", [some "5", some "6"])]
    [("Vendor", "Vendor")] (by decide) (by decide) (by decide)


/-- C9: missing cells of an assigned column pass through `replace_value`
unchanged — the output column holds a missing value wherever the input did —
and the mapper state and stream after the column pass equal those obtained
from the non-missing cells alone: a missing value never reaches the mapper,
never errors, and creates no mapping entry. -/
theorem C9_missing_transparency (pfx : String) :
    ∀ (cells : List Cell) (st : SessionMapper × (Nat → Nat)),
      List.Forall₂ (fun a b => a = none → b = none) cells (mapColumn pfx st cells).1 ∧
      (mapColumn pfx st cells).2
        = (mapColumn pfx st (cells.filter (fun c => c.isSome))).2 := by
  intro cells
  induction cells with
  | nil => intro st; exact ⟨List.Forall₂.nil, rfl⟩
  | cons c rest ih =>
    intro st
    cases c with
    | none =>
      constructor
      · exact List.Forall₂.cons (fun _ => rfl) (ih st).1
      · simpa [mapColumn, List.filter_cons] using (ih st).2
    | some s =>
      constructor
      · exact List.Forall₂.cons (fun hc => Option.noConfusion hc) (ih _).1
      · simp only [mapColumn, List.filter_cons, Option.isSome_some, if_true]
        exact (ih _).2

set_option maxRecDepth 100000 in
/-- C6 counterexample: the claim says an assignment naming an absent column
leaves the table entirely unmodified. In the code the assigned columns are
replaced one at a time and the `KeyError` fires only when the absent column
is reached, so earlier assigned columns have already been overwritten: here
the transformation errors on absent column "C", yet column "A" was mutated. -/
theorem C6_counterexample :
    (transform (fun _ => 0) [("A", [some "x"]), ("B", [some "y"])]
        [("A", "Vendor"), ("C", "Org")]).1.isSome = true ∧
    (transform (fun _ => 0) [("A", [some "x"]), ("B", [some "y"])]
        [("A", "Vendor"), ("C", "Org")]).2.1 ≠ [("A", [some "x"]), ("B", [some "y"])] := by
  constructor
  · decide
  · decide

/-- C6 amended: an assignment naming a column absent from the table makes the
transformation fail with a `KeyError` (there is no dedicated
InvalidColumnReference) when that column is reached; when the absent column
is the first assignment processed, the table is returned unmodified, but
assigned columns processed before the absent one have already been replaced
(see the counterexample), so the call is not atomic in general. -/
theorem C6_error_on_absent_column (g : Nat → Nat) (t : Table) (col pfxv : String)
    (rest : List (String × String)) (h : getColumn t col = none) :
    (transform g t ((col, pfxv) :: rest)).1 = some ("KeyError: " ++ col) ∧
    (transform g t ((col, pfxv) :: rest)).2.1 = t := by
  constructor <;> simp only [transform, transformLoop, h]

/-- Witness for the amended C6: a one-column table whose single assignment
names the absent column "C" errors immediately and is returned unmodified. -/
theorem C6_error_on_absent_column_witness :
    (transform (fun _ => 0) [("A", [some "x"])] [("C", "Org")]).1
      = some ("KeyError: " ++ "C") ∧
    (transform (fun _ => 0) [("A", [some "x"])] [("C", "Org")]).2.1
      = [("A", [some "x"])] :=
  C6_error_on_absent_column (fun _ => 0) [("A", [some "x"])] "C" "Org" [] (by decide)

theorem pairwise_entries_rel {R : String × String → String × String → Prop}
    (hsym : ∀ a b, R a b → R b a) :
    ∀ l : List (String × String), List.Pairwise R l →
      ∀ a b : String × String, a ∈ l → b ∈ l → a.1 ≠ b.1 → R a b := by
  intro l
  induction l with
  | nil =>
    intro _ a b ha
    exact absurd ha (List.not_mem_nil a)
  | cons x xs ih =>
    intro hp a b ha hb hne
    rcases List.mem_cons.1 ha with rfl | ha'
    · rcases List.mem_cons.1 hb with rfl | hb'
      · exact absurd rfl hne
      · exact List.rel_of_pairwise_cons hp hb'
    · rcases List.mem_cons.1 hb with rfl | hb'
      · exact hsym _ _ (List.rel_of_pairwise_cons hp ha')
      · exact ih hp.of_cons a b ha' hb' hne

/-- C4: distinct values mapped for the same prefix while the primary range
still had capacity carry distinct pseudonyms: whenever a session state holds
cached pseudonyms for v1 and v2 (v1 ≠ v2) under one prefix and v1 was mapped
under capacity — its pseudonym carries a primary-range number n1 ≤ 999 — the
two cached pseudonyms (which every `map` call returns, by consistency)
differ. -/
theorem C4_injectivity {m : SessionMapper} (hreach : Reachable m)
    (pfx v1 v2 f1 f2 : String) (n1 : Nat) (hne : v1 ≠ v2)
    (h1 : lookupVal (m.mappings pfx) v1 = some f1)
    (h2 : lookupVal (m.mappings pfx) v2 = some f2)
    (hf1 : f1 = fakeString pfx n1) (hn1 : n1 ≤ 999) :
    f1 ≠ f2 := by
  obtain ⟨_, hD⟩ := reachable_prim hreach
  have hm1 := lookupVal_eq_some_mem _ _ _ h1
  have hm2 := lookupVal_eq_some_mem _ _ _ h2
  have hsym : ∀ a b : String × String,
      (∀ n, n ≤ 999 → a.2 = fakeString pfx n → b.2 ≠ fakeString pfx n) →
      ∀ n, n ≤ 999 → b.2 = fakeString pfx n → a.2 ≠ fakeString pfx n := by
    intro a b hR n hn hb ha
    exact hR n hn ha hb
  have hrel := pairwise_entries_rel hsym _ (hD pfx) (v1, f1) (v2, f2) hm1 hm2 hne
  intro hEq
  exact hrel n1 hn1 hf1 (by rw [← hEq, hf1])

set_option maxRecDepth 100000 in
/-- Witness for C4 on a concrete session: after mapping "Acme" and then
"Boeing" under prefix "Vendor" in a fresh session (stream picking index 0),
the cached pseudonyms are "Vendor_001" and "Vendor_002", and the theorem
yields their distinctness. -/
theorem C4_injectivity_witness : ("Vendor_001" : String) ≠ "Vendor_002" :=
  C4_injectivity
    (Reachable.step (getFakeValue SessionMapper.init (fun _ => 0) "Vendor" "Acme").2.1
      (fun _ => 0) "Vendor" "Boeing"
      (Reachable.step SessionMapper.init (fun _ => 0) "Vendor" "Acme" Reachable.init))
    "Vendor" "Acme" "Boeing" "Vendor_001" "Vendor_002" 1
    (by decide) (by decide) (by decide) (by decide) (by decide)

end PseudoBank
